import Mathlib

/-!
Verification development for the `ioc_extractor_docx` repository.

The Python sources under `src/` are shallowly embedded: strings are Lean
`String`s (processed as `List Char`), generators become lists, an exception
raised by a rule mid-scan is modelled by recording the prefix of records the
rule yielded before the fault together with the fault message, and the
file-system interaction of the coordinator is modelled by an explicit record
of the facts the code branches on (existence, suffix, open failure).

Python regular expressions are embedded as executable scanners that
transliterate each concrete pattern of the source (`src/src/ioc/normalizer.py`,
`src/src/rules/regex_pattern.py`, `src/src/rules/list_after_colon.py`);
recursion that is not structural in the source is driven by a fuel argument
that provably suffices (each step consumes at least one input character).
-/

namespace IoCDocx

/-! ## Character classes and list/string utilities -/

def isHexC (c : Char) : Bool :=
  c.isDigit || ('a' ≤ c && c ≤ 'f') || ('A' ≤ c && c ≤ 'F')

/-- Python `\w` (ASCII model): letters, digits, underscore. -/
def isWordC (c : Char) : Bool := c.isAlphanum || c = '_'

def toLowerL (s : List Char) : List Char := s.map Char.toLower

/-- Python `str.strip()` on both ends (whitespace). -/
def trimL (s : List Char) : List Char :=
  ((s.dropWhile Char.isWhitespace).reverse.dropWhile Char.isWhitespace).reverse

/-- Python `str.rstrip(";.")`. -/
def rstripSepL (s : List Char) : List Char :=
  (s.reverse.dropWhile (fun c => c = ';' || c = '.')).reverse

/-- Does `s` end with the single character `c`? -/
def endsCharL (c : Char) (s : List Char) : Bool :=
  match s.getLast? with
  | some d => d = c
  | none => false

/-- Split on a separator character (mirrors Python `str.split(sep)`). -/
def splitOnCharL (sep : Char) : List Char → List (List Char)
  | [] => [[]]
  | c :: rest =>
    match splitOnCharL sep rest with
    | [] => if c = sep then [[], []] else [[c]]
    | h :: t => if c = sep then [] :: h :: t else (c :: h) :: t

def intercalateL (sep : List Char) : List (List Char) → List Char
  | [] => []
  | [x] => x
  | x :: y :: rest => x ++ sep ++ intercalateL sep (y :: rest)

/-- Does `pat` occur at the very start of `s` (case-insensitively when `ci`)? -/
def matchAtL (ci : Bool) (pat s : List Char) : Bool :=
  let t := s.take pat.length
  (if ci then toLowerL pat else pat) == (if ci then toLowerL t else t)

/-- Does `pat` occur anywhere in `s`? -/
def hasMatchL (ci : Bool) (pat : List Char) : List Char → Bool
  | [] => false
  | c :: rest => matchAtL ci pat (c :: rest) || hasMatchL ci pat rest

/-- Fuelled core of `re.sub` with a literal pattern: replace every
(non-overlapping, left-to-right) occurrence of `pat` by `rep`.  Each step
consumes at least one character, so fuel equal to the input length suffices. -/
def replaceAllF (ci : Bool) (pat rep : List Char) : Nat → List Char → List Char
  | 0, s => s
  | _ + 1, [] => []
  | n + 1, c :: rest =>
    if pat ≠ [] && matchAtL ci pat (c :: rest) then
      rep ++ replaceAllF ci pat rep n ((c :: rest).drop pat.length)
    else
      c :: replaceAllF ci pat rep n rest

def replaceAllL (ci : Bool) (pat rep s : List Char) : List Char :=
  replaceAllF ci pat rep s.length s

/-- Length of the maximal prefix of `s` satisfying `p`. -/
def countWhile (p : Char → Bool) : List Char → Nat
  | [] => 0
  | c :: rest => if p c then countWhile p rest + 1 else 0

/-! ## Data model (`src/src/ioc/normalizer.py`) -/

/-- `IoCType` enumeration of `normalizer.py`. -/
inductive IoCType where
  | HASH_MD5 | HASH_SHA1 | HASH_SHA256 | HASH_SHA512
  | URL | DOMAIN | IP_ADDRESS | EMAIL
  | FILE_PATH | REGISTRY_KEY | CVE | UNKNOWN
deriving DecidableEq, Repr

/-- The `IoC` dataclass of `normalizer.py`. -/
structure IoC where
  value : String
  ioc_type : IoCType
  source_context : String
  defanged : Bool
  original_value : String
  rule_extracted : String
deriving DecidableEq, Repr

/-- Constructing an `IoC`: `__post_init__` defaults `original_value` to
`value` when it was not separately supplied (supplied as the empty string).
`rule_extracted` starts empty; the coordinator assigns it later. -/
def mkIoC (value : String) (ioc_type : IoCType) (source_context : String)
    (defanged : Bool) (original_value : String) : IoC :=
  { value := value
    ioc_type := ioc_type
    source_context := source_context
    defanged := defanged
    original_value := if original_value = "" then value else original_value
    rule_extracted := "" }

/-- The deduplication key: equality and hashing of `IoC` are defined over
`(value, ioc_type)` only. -/
def iocKey (i : IoC) : String × IoCType := (i.value, i.ioc_type)

/-- The coordinator's `ioc.rule_extracted = rule.name` assignment. -/
def setRule (n : String) (i : IoC) : IoC := { i with rule_extracted := n }

/-! ## Normalizer (`IoCNormalizer` in `src/src/ioc/normalizer.py`) -/

namespace IoCNormalizer

/-- `DEFANG_PATTERNS`: ordered literal substitutions
(pattern, replacement, case-insensitive?). -/
def DEFANG_PATTERNS : List (List Char × List Char × Bool) :=
  [ ("hxxps".data, ("https".data, false))
  , ("hxxp".data,  ("http".data,  false))
  , ("[:]".data,   (":".data,     false))
  , ("[.]".data,   (".".data,     false))
  , ("[dot]".data, (".".data,     true))
  , ("[@]".data,   ("@".data,     false))
  , ("[at]".data,  ("@".data,     true)) ]

/-- `IoCNormalizer.refang` on character lists: apply each substitution to the
result of the previous one; report whether any substitution changed the
string. -/
def refangL (s : List Char) : List Char × Bool :=
  DEFANG_PATTERNS.foldl
    (fun acc p =>
      let r := replaceAllL p.2.2 p.1 p.2.1 acc.1
      (r, acc.2 || (r != acc.1)))
    (s, false)

/-- `IoCNormalizer.refang`. -/
def refang (s : String) : String × Bool :=
  let r := refangL s.data
  (String.mk r.1, r.2)

/-- Full-string match of `^[a-fA-F0-9]{n}$`. -/
def isHexLen (n : Nat) (v : List Char) : Bool :=
  v.length == n && v.all isHexC

/-- Full-string match of the `CVE` pattern `^CVE-\d{4}-\d{4,}$` (ignorecase). -/
def cveFullL (v : List Char) : Bool :=
  toLowerL (v.take 4) == "cve-".data &&
  (let r := v.drop 4
   (r.take 4).length == 4 && (r.take 4).all Char.isDigit &&
   (match r.drop 4 with
    | '-' :: ds => decide (4 ≤ ds.length) && ds.all Char.isDigit
    | _ => false))

/-- One octet of the `IP_ADDRESS` pattern: a digit group that the alternation
`25[0-5]|2[0-4][0-9]|[01]?[0-9][0-9]?` consumes entirely. -/
def octetStr (p : List Char) : Bool :=
  p ≠ [] && p.all Char.isDigit &&
  (match p with
   | [_] => true
   | [_, _] => true
   | [d0, d1, d2] =>
     d0 = '0' || d0 = '1' || (d0 = '2' && (d1 ≤ '4' || (d1 = '5' && d2 ≤ '5')))
   | _ => false)

/-- Full-string match of the strict dotted-quad `IP_ADDRESS` pattern. -/
def ipFullL (v : List Char) : Bool :=
  match splitOnCharL '.' v with
  | [a, b, c, d] => octetStr a && octetStr b && octetStr c && octetStr d
  | _ => false

def isLocalC (c : Char) : Bool :=
  c.isAlphanum || c = '.' || c = '_' || c = '%' || c = '+' || c = '-'

def isDomC (c : Char) : Bool := c.isAlphanum || c = '.' || c = '-'

/-- Full-string match of the `EMAIL` pattern
`^[a-zA-Z0-9._%+-]+@[a-zA-Z0-9.-]+\.[a-zA-Z]{2,}$`: one `@`, a non-empty
local part over its class, and a domain whose part after the last dot is at
least two letters with a non-empty remainder before that dot. -/
def emailFullL (v : List Char) : Bool :=
  match splitOnCharL '@' v with
  | [l, d] =>
    l ≠ [] && l.all isLocalC && d.all isDomC &&
    (let parts := splitOnCharL '.' d
     decide (2 ≤ parts.length) &&
     (match parts.getLast? with
      | some t => decide (2 ≤ t.length) && t.all Char.isAlpha
      | none => false) &&
     intercalateL ['.'] parts.dropLast ≠ [])
  | _ => false

def urlSchemes : List (List Char) :=
  ["hxxps".data, "hxxp".data, "https".data, "http".data, "ftp".data]

/-- The dotted head of the URL body: `[^\s;.]+(\.[^\s;.]+)*`. -/
def urlHeadOK (h : List Char) : Bool :=
  h ≠ [] &&
  (splitOnCharL '.' h).all
    (fun seg => seg ≠ [] && seg.all (fun c => !c.isWhitespace && c ≠ ';'))

/-- The optional trailing part of the URL body: `(/[^\s]*)?`. -/
def urlRestOK (r : List Char) : Bool :=
  r == [] ||
  (match r with
   | '/' :: _ => r.all (fun c => !c.isWhitespace)
   | _ => false)

/-- Full-string match of the `URL` pattern
`^(?:hxxps?|https?|ftp)://[^\s;.]+(?:\.[^\s;.]+)*(?:/[^\s]*)?$` (ignorecase):
some split of the part after the scheme into a dotted head and an optional
`/...` tail. -/
def urlFullL (v : List Char) : Bool :=
  urlSchemes.any (fun sch =>
    let pre := sch ++ "://".data
    matchAtL true pre v &&
    (let b := v.drop pre.length
     (List.range (b.length + 1)).any (fun i =>
       urlHeadOK (b.take i) && urlRestOK (b.drop i))))

/-- One label of the `DOMAIN` pattern:
`[a-zA-Z0-9](?:[a-zA-Z0-9-]{0,61}[a-zA-Z0-9])?`. -/
def domainLabel (p : List Char) : Bool :=
  p ≠ [] && decide (p.length ≤ 63) &&
  p.all (fun c => c.isAlphanum || c = '-') &&
  (match p with
   | c :: _ => c.isAlphanum
   | [] => false) &&
  (match p.getLast? with
   | some c => c.isAlphanum
   | none => false)

/-- Full-string match of the `DOMAIN` pattern: labels separated by `.` or
literal `[.]`, ending in a TLD of at least two letters.  Separators are
unambiguous (labels contain no brackets or dots), so `[.]` is first rewritten
to `.` and the result is split on dots. -/
def domainFullL (v : List Char) : Bool :=
  let parts := splitOnCharL '.' (replaceAllL false "[.]".data ".".data v)
  decide (2 ≤ parts.length) &&
  (match parts.getLast? with
   | some t => decide (2 ≤ t.length) && t.all Char.isAlpha
   | none => false) &&
  parts.dropLast.all domainLabel

/-- `IoCNormalizer.classify`: hash lengths first, then
CVE, IP, EMAIL, URL, DOMAIN; falls closed to `UNKNOWN`. -/
def classifyL (v : List Char) : IoCType :=
  if isHexLen 32 v then .HASH_MD5
  else if isHexLen 40 v then .HASH_SHA1
  else if isHexLen 64 v then .HASH_SHA256
  else if isHexLen 128 v then .HASH_SHA512
  else if cveFullL v then .CVE
  else if ipFullL v then .IP_ADDRESS
  else if emailFullL v then .EMAIL
  else if urlFullL v then .URL
  else if domainFullL v then .DOMAIN
  else .UNKNOWN

/-- `IoCNormalizer.classify`. -/
def classify (v : String) : IoCType := classifyL v.data

/-- `IoCNormalizer.normalize_and_classify`: strip whitespace, strip trailing
`;`/`.` runs, refang, classify; `original_value` is the whitespace-stripped
input. -/
def normalize_and_classify (value : String) (context : String) : IoC :=
  let original := trimL value.data
  let cleaned := rstripSepL original
  let nr := refangL cleaned
  mkIoC (String.mk nr.1) (classifyL nr.1) context nr.2 (String.mk original)

end IoCNormalizer

/-! ## Coordinator (`IoCExtractor` in `src/src/ioc/extractor.py`)

A rule applied to one document is modelled by a `RuleRun`: the rule's name,
the sequence of records its generator yielded before completing or faulting,
and the fault message when it raised (`none` when it completed).  The
coordinator's `for ioc in rule.extract(document)` loop processes exactly the
records yielded before the fault point and then, on a fault, appends one
error string. -/

/-- One rule's behaviour on one document. -/
structure RuleRun where
  name : String
  yielded : List IoC
  failMsg : Option String
deriving DecidableEq, Repr

/-- `if not pass_unknown and ioc.ioc_type == IoCType.UNKNOWN: continue` —
keep a record iff it survives this filter. -/
def keepIoC (passUnknown : Bool) (i : IoC) : Bool :=
  passUnknown || !(i.ioc_type = IoCType.UNKNOWN)

/-- The body of the coordinator's inner loop over one rule's yielded records:
filter `UNKNOWN`, deduplicate against `seen` on `(value, type)`, assign
`rule_extracted`, append.  Returns the appended records and the grown
`seen` set. -/
def processItems (pu : Bool) (rname : String) (seen : List (String × IoCType)) :
    List IoC → List IoC × List (String × IoCType)
  | [] => ([], seen)
  | i :: rest =>
    if !keepIoC pu i then processItems pu rname seen rest
    else if iocKey i ∈ seen then processItems pu rname seen rest
    else
      let r := processItems pu rname (iocKey i :: seen) rest
      (setRule rname i :: r.1, r.2)

/-- `f"Ошибка в правиле '{rule.name}': {e}"`. -/
def ruleErr (n m : String) : String :=
  "Ошибка в правиле '" ++ n ++ "': " ++ m

/-- The coordinator's outer loop over rules, threading the `seen` set;
produces the collected records and error strings. -/
def runRulesAux (pu : Bool) (seen : List (String × IoCType)) :
    List RuleRun → List IoC × List String
  | [] => ([], [])
  | r :: rest =>
    let pr := processItems pu r.name seen r.yielded
    let next := runRulesAux pu pr.2 rest
    (pr.1 ++ next.1,
     (match r.failMsg with
      | some m => [ruleErr r.name m]
      | none => []) ++ next.2)

/-- Rule application and aggregation of `IoCExtractor.extract` (the part after
the file-level checks), starting from an empty `seen` set. -/
def runRules (pu : Bool) (runs : List RuleRun) : List IoC × List String :=
  runRulesAux pu [] runs

/-- The facts about a filesystem path that `IoCExtractor.extract` branches
on: `filepath.exists()`, `filepath.suffix`, and whether
`DocxDocument(filepath)` raises (with which message). -/
structure FileInfo where
  filepath : String
  fileExists : Bool
  suffix : String
  openError : Option String
deriving DecidableEq, Repr

/-- The `ExtractionResult` dataclass of `extractor.py`. -/
structure ExtractionResult where
  filepath : String
  iocs : List IoC
  errors : List String
deriving DecidableEq, Repr

/-- Python `str.lower()`. -/
def lowerStr (s : String) : String := String.mk (toLowerL s.data)

/-- `IoCExtractor.extract`: the file-level validation short-circuits with a
single error and an empty record list; otherwise the rules run.  `runs` is
the behaviour of the registered rules on the opened document. -/
def extract (f : FileInfo) (pu : Bool) (runs : List RuleRun) : ExtractionResult :=
  if !f.fileExists then
    ⟨f.filepath, [], ["Файл не найден: " ++ f.filepath]⟩
  else if lowerStr f.suffix ≠ ".docx" then
    ⟨f.filepath, [], ["Неподдерживаемый формат файла: " ++ f.suffix]⟩
  else
    match f.openError with
    | some e => ⟨f.filepath, [], ["Ошибка открытия документа: " ++ e]⟩
    | none =>
      let r := runRules pu runs
      ⟨f.filepath, r.1, r.2⟩

/-! ## Spec-modelled coordinator variant with `url_original`

`src/src/main.py` calls the batch entry point with `url_original` (and
`hash_original`) options, but the coordinator variant implementing them is
not present under `src/`; only this caller and the spec describe it.  The
URL→domain post-processing below is therefore modelled from the spec's
words: "if `url_original` is false (default) and type is URL, collapse value
to its registrable host (strip scheme/path/query, strip a numeric port) and
re-type as DOMAIN; if type is already DOMAIN, still strip any trailing
`:port`". -/

/-- Modelled from the spec: strip a trailing `:port` (a colon followed by
only digits) from a host string. -/
def stripTrailingPort (h : List Char) : List Char :=
  let r := h.reverse
  let ds := r.takeWhile Char.isDigit
  match r.drop ds.length with
  | ':' :: _ => if ds = [] then h else (r.drop (ds.length + 1)).reverse
  | _ => h

/-- The part of `v` after the first occurrence of `pat`, when present. -/
def afterSub (pat : List Char) : List Char → Option (List Char)
  | [] => none
  | c :: rest =>
    if matchAtL false pat (c :: rest) then some ((c :: rest).drop pat.length)
    else afterSub pat rest

/-- Modelled from the spec: collapse a URL value to its registrable host —
strip the scheme (everything through `://`), strip path and query (cut at the
first `/` or `?`), strip a numeric port. -/
def collapseUrlToDomain (v : List Char) : List Char :=
  let afterScheme := (afterSub "://".data v).getD v
  stripTrailingPort (afterScheme.takeWhile (fun c => c ≠ '/' && c ≠ '?'))

/-- Modelled from the spec: the per-record post-processing of the coordinator
variant with `url_original` — URL records are collapsed to their registrable
host and re-typed `DOMAIN`; DOMAIN records get a trailing `:port` stripped;
with `url_original = true` records pass through unchanged. -/
def postProcess (urlOriginal : Bool) (i : IoC) : IoC :=
  if urlOriginal then i
  else if i.ioc_type = IoCType.URL then
    { i with value := String.mk (collapseUrlToDomain i.value.data)
             ioc_type := IoCType.DOMAIN }
  else if i.ioc_type = IoCType.DOMAIN then
    { i with value := String.mk (stripTrailingPort i.value.data) }
  else i

/-- Modelled from the spec: inner loop of the coordinator variant with
`url_original` — filter `UNKNOWN`, post-process, then deduplicate on the
post-processed `(value, type)`. -/
def processItemsFull (pu urlOrig : Bool) (rname : String)
    (seen : List (String × IoCType)) : List IoC → List IoC × List (String × IoCType)
  | [] => ([], seen)
  | i :: rest =>
    if !keepIoC pu i then processItemsFull pu urlOrig rname seen rest
    else
      let j := postProcess urlOrig i
      if iocKey j ∈ seen then processItemsFull pu urlOrig rname seen rest
      else
        let r := processItemsFull pu urlOrig rname (iocKey j :: seen) rest
        (setRule rname j :: r.1, r.2)

/-- Modelled from the spec: outer rule loop of the coordinator variant with
`url_original`. -/
def runRulesFullAux (pu urlOrig : Bool) (seen : List (String × IoCType)) :
    List RuleRun → List IoC × List String
  | [] => ([], [])
  | r :: rest =>
    let pr := processItemsFull pu urlOrig r.name seen r.yielded
    let next := runRulesFullAux pu urlOrig pr.2 rest
    (pr.1 ++ next.1,
     (match r.failMsg with
      | some m => [ruleErr r.name m]
      | none => []) ++ next.2)

/-- Modelled from the spec: rule application of the coordinator variant with
`url_original`. -/
def runRulesFull (pu urlOrig : Bool) (runs : List RuleRun) : List IoC × List String :=
  runRulesFullAux pu urlOrig [] runs

/-! ## List-after-colon rule (`src/src/rules/list_after_colon.py`)

A document's paragraph sequence is modelled as the list of paragraph texts
(`_get_paragraph_text` concatenates a paragraph's runs; the rule only uses
that text). -/

namespace ListAfterColonRule

/-- The possible remainders of consuming one optional literal character
(a backtracking branch of `x?`). -/
def optChar (c : Char) (s : List Char) : List (List Char) :=
  match s with
  | d :: rest => if d = c then [rest, s] else [s]
  | [] => [s]

/-- Remainders of `\[?\.\]?`: an optional `[`, a mandatory `.`, an
optional `]`. -/
def ipishSepRems (s : List Char) : List (List Char) :=
  ((optChar '[' s).filterMap (fun r =>
    match r with
    | '.' :: r2 => some r2
    | _ => none)).flatMap (optChar ']')

/-- Prefix match of `(?:\[?\.\]?\d{1,3}){k}` (with backtracking, as an
existential over the branch choices). -/
def ipishGroups : Nat → List Char → Bool
  | 0, _ => true
  | k + 1, s =>
    (ipishSepRems s).any (fun r =>
      [1, 2, 3].any (fun d =>
        (r.take d).length == d && (r.take d).all Char.isDigit &&
        ipishGroups k (r.drop d)))

/-- `ListAfterColonRule._looks_like_ioc`: a 32–128 character hex blob, a
url-scheme start, or a digit-group start `^\d{1,3}(?:\[?\.\]?\d{1,3}){3}`. -/
def looksLikeIoC (t : String) : Bool :=
  let s := t.data
  (decide (32 ≤ s.length) && decide (s.length ≤ 128) && s.all isHexC) ||
  ["hxxp".data, "http".data, "ftp".data].any (fun p => matchAtL true p s) ||
  [1, 2, 3].any (fun d =>
    (s.take d).length == d && (s.take d).all Char.isDigit &&
    ipishGroups 3 (s.drop d))

/-- `yield` of one list item when the value is non-empty. -/
def lacItem (v : List Char) (ctx : String) : List IoC :=
  if v ≠ [] then [IoCNormalizer.normalize_and_classify (String.mk v) ctx] else []

/-- The two nested `while` loops of `ListAfterColonRule.extract`.  The state
is the optional open list context; leaving an open list on a non-item
paragraph re-examines that same paragraph for a new header, so each step
either consumes a paragraph or closes the context — fuel
`2 * length + 1` suffices. -/
def lacScan (fuel : Nat) (ctx : Option String) (paras : List String) : List IoC :=
  match fuel with
  | 0 => []
  | fuel + 1 =>
    match ctx, paras with
    | _, [] => []
    | none, p :: ps =>
      let t := trimL p.data
      if endsCharL ':' t then lacScan fuel (some (String.mk t)) ps
      else lacScan fuel none ps
    | some c, p :: ps =>
      let t := trimL p.data
      if t = [] then lacScan fuel (some c) ps
      else if endsCharL ';' t then
        lacItem (trimL t.dropLast) c ++ lacScan fuel (some c) ps
      else if endsCharL '.' t then
        lacItem (trimL t.dropLast) c ++ lacScan fuel none ps
      else if looksLikeIoC (String.mk t) then
        IoCNormalizer.normalize_and_classify (String.mk t) c :: lacScan fuel (some c) ps
      else
        lacScan fuel none (p :: ps)

/-- `ListAfterColonRule.extract` over the document's paragraph texts. -/
def extract (paras : List String) : List IoC :=
  lacScan (2 * paras.length + 1) none paras

end ListAfterColonRule

/-! ## Regex-sweep rule (`src/src/rules/regex_pattern.py`)

Each compiled pattern of `SEARCH_PATTERNS` is embedded as a scanner
`Option Char → List Char → Option Nat`: given the previous character (for
`\b`) and the suffix at the current position, it returns the length of the
match starting there, mirroring the pattern's greedy/backtracking behaviour.
`finditer` is the fuelled scan that advances one character on failure and
past the match on success. -/

namespace RegexPatternRule

/-- Word-boundary `\b` before a word character: start of text or a non-word
previous character. -/
def bOK (prev : Option Char) : Bool :=
  match prev with
  | none => true
  | some c => !isWordC c

/-- Word-boundary `\b` after the first `n` characters of `s`. -/
def nextNonWord (s : List Char) (n : Nat) : Bool :=
  match s.drop n with
  | [] => true
  | c :: _ => !isWordC c

/-- `\b[a-fA-F0-9]{n}\b`. -/
def tryHash (n : Nat) (prev : Option Char) (s : List Char) : Option Nat :=
  if bOK prev && (s.take n).length == n && (s.take n).all isHexC &&
     nextNonWord s n then some n else none

def urlBodyC (c : Char) : Bool :=
  !(c.isWhitespace || c = '<' || c = '>' || c = '"' || c = '\'' ||
    c = ';' || c = ',')

def urlTrailPunct (c : Char) : Bool :=
  c = '.' || c = ',' || c = '!' || c = '?' || c = ';' || c = ':'

/-- The url patterns `hxxps?\[:\]//[^\s<>"\';,\n]+(?<![.,!?;:])` and
`https?://[^\s<>"\';,\n]+(?<![.,!?;:])` (ignorecase), parametrised by the
scheme base and the separator literal: optional `s` (greedy), then the
separator, then a non-empty body run with trailing terminator punctuation
backed off. -/
def tryUrl (base sep : List Char) (_prev : Option Char) (s : List Char) : Option Nat :=
  if matchAtL true base s then
    let afterBase := s.drop base.length
    let attempt := fun (extra : Nat) (r : List Char) =>
      if matchAtL false sep r then
        let rem := r.drop sep.length
        let k := countWhile urlBodyC rem
        let t := countWhile urlTrailPunct (rem.take k).reverse
        if k - t == 0 then none
        else some (base.length + extra + sep.length + (k - t))
      else none
    match afterBase with
    | c :: r2 =>
      if c.toLower = 's' then
        match attempt 1 r2 with
        | some n => some n
        | none => attempt 0 afterBase
      else attempt 0 afterBase
    | [] => none
  else none

/-- A `\d{1,3}` group that must be the whole digit run at this position
(the following literal makes shorter consumption impossible). -/
def digitGroup (s : List Char) : Option (Nat × List Char) :=
  let g := countWhile Char.isDigit s
  if 1 ≤ g && g ≤ 3 then some (g, s.drop g) else none

/-- `\b\d{1,3}\[\.\]\d{1,3}\[\.\]\d{1,3}\[\.\]\d{1,3}\b`. -/
def tryIpDefanged (prev : Option Char) (s : List Char) : Option Nat :=
  if bOK prev then
    match digitGroup s with
    | some (g1, r1) =>
      if matchAtL false "[.]".data r1 then
        match digitGroup (r1.drop 3) with
        | some (g2, r2) =>
          if matchAtL false "[.]".data r2 then
            match digitGroup (r2.drop 3) with
            | some (g3, r3) =>
              if matchAtL false "[.]".data r3 then
                match digitGroup (r3.drop 3) with
                | some (g4, r4) =>
                  if (match r4 with
                      | [] => true
                      | c :: _ => !isWordC c) then
                    some (g1 + g2 + g3 + g4 + 9)
                  else none
                | none => none
              else none
            | none => none
          else none
        | none => none
      else none
    | none => none
  else none

/-- A dotted-quad octet group: the whole digit run, consumable by
`25[0-5]|2[0-4][0-9]|[01]?[0-9][0-9]?`. -/
def octetGroup (s : List Char) : Option (Nat × List Char) :=
  let g := countWhile Char.isDigit s
  if 1 ≤ g && g ≤ 3 && IoCNormalizer.octetStr (s.take g) then
    some (g, s.drop g)
  else none

/-- `\b(?:(?:25[0-5]|2[0-4][0-9]|[01]?[0-9][0-9]?)\.){3}(...)\b`. -/
def tryIpNormal (prev : Option Char) (s : List Char) : Option Nat :=
  if bOK prev then
    match octetGroup s with
    | some (g1, r1) =>
      match r1 with
      | '.' :: r1' =>
        match octetGroup r1' with
        | some (g2, r2) =>
          match r2 with
          | '.' :: r2' =>
            match octetGroup r2' with
            | some (g3, r3) =>
              match r3 with
              | '.' :: r3' =>
                match octetGroup r3' with
                | some (g4, r4) =>
                  if (match r4 with
                      | [] => true
                      | c :: _ => !isWordC c) then
                    some (g1 + g2 + g3 + g4 + 3)
                  else none
                | none => none
              | _ => none
            | none => none
          | _ => none
        | none => none
      | _ => none
    | none => none
  else none

def labelC (c : Char) : Bool := c.isAlphanum || c = '-'

/-- The tail `(?:\[\.\][a-zA-Z0-9][a-zA-Z0-9-]*)+\[\.\][a-zA-Z]{2,}\b` of the
defanged-domain pattern, with the greedy group iteration tried before the
final TLD alternative.  `groups` counts completed group iterations. -/
def ddTail (fuel groups : Nat) (s : List Char) : Option Nat :=
  match fuel with
  | 0 => none
  | fuel + 1 =>
    if matchAtL false "[.]".data s then
      let r := s.drop 3
      let cont :=
        match r with
        | c :: _ =>
          if c.isAlphanum then
            let L := countWhile labelC r
            match ddTail fuel (groups + 1) (r.drop L) with
            | some n => some (3 + L + n)
            | none => none
          else none
        | [] => none
      match cont with
      | some n => some n
      | none =>
        if 1 ≤ groups then
          let T := countWhile Char.isAlpha r
          if 2 ≤ T && nextNonWord r T then some (3 + T) else none
        else none
    else none

/-- `\b[a-zA-Z0-9][a-zA-Z0-9-]*(?:\[\.\][a-zA-Z0-9][a-zA-Z0-9-]*)+\[\.\][a-zA-Z]{2,}\b`. -/
def tryDomainDefanged (prev : Option Char) (s : List Char) : Option Nat :=
  if bOK prev &&
     (match s with
      | c :: _ => c.isAlphanum
      | [] => false) then
    let L := countWhile labelC s
    match ddTail s.length 0 (s.drop L) with
    | some n => some (L + n)
    | none => none
  else none

/-- `\bCVE-\d{4}-\d{4,}\b` (ignorecase). -/
def tryCve (prev : Option Char) (s : List Char) : Option Nat :=
  if bOK prev && matchAtL true "cve-".data s then
    let r := s.drop 4
    if countWhile Char.isDigit r == 4 then
      match r.drop 4 with
      | '-' :: r2 =>
        let g2 := countWhile Char.isDigit r2
        if 4 ≤ g2 && nextNonWord r2 g2 then some (9 + g2) else none
      | _ => none
    else none
  else none

/-- Search, from index `j` downward, for the split of the email domain run:
a `.` at the index, then at least two letters, then `\b`.  This is the
backtracking of the greedy `[a-zA-Z0-9.-]+` before `\.[a-zA-Z]{2,}\b`. -/
def emSearch (dom : List Char) : Nat → Option Nat
  | 0 => none
  | j + 1 =>
    if dom.getD (j + 1) ' ' = '.' then
      let after := dom.drop (j + 2)
      let T := countWhile Char.isAlpha after
      if 2 ≤ T && nextNonWord after T then some (j + 2 + T)
      else emSearch dom j
    else emSearch dom j

/-- `\b[a-zA-Z0-9._%+-]+@[a-zA-Z0-9.-]+\.[a-zA-Z]{2,}\b`.  The leading `\b`
holds when the word-ness of the previous character differs from that of the
first matched character. -/
def tryEmail (prev : Option Char) (s : List Char) : Option Nat :=
  match s with
  | [] => none
  | c :: _ =>
    let bound :=
      match prev with
      | none => isWordC c
      | some p => isWordC p != isWordC c
    if bound then
      let L := countWhile IoCNormalizer.isLocalC s
      if 1 ≤ L then
        match s.drop L with
        | '@' :: dom =>
          let D := countWhile IoCNormalizer.isDomC dom
          match (match D with
                 | 0 => none
                 | D' + 1 => emSearch dom D') with
          | some k => some (L + 1 + k)
          | none => none
        | _ => none
      else none
    else none

/-- Fuelled `finditer`: at each position try the scanner; on success record
`(start, length)` and continue past the match, otherwise advance one
character.  Each step consumes at least one character, so fuel equal to the
text length suffices. -/
def scanAux (try_ : Option Char → List Char → Option Nat) :
    Nat → Nat → Option Char → List Char → List (Nat × Nat)
  | 0, _, _, _ => []
  | _ + 1, _, _, [] => []
  | fuel + 1, pos, prev, c :: rest =>
    match try_ prev (c :: rest) with
    | some n =>
      if n = 0 then scanAux try_ fuel (pos + 1) (some c) rest
      else
        (pos, n) ::
          scanAux try_ fuel (pos + n) (some ((c :: rest).getD (n - 1) c))
            ((c :: rest).drop n)
    | none => scanAux try_ fuel (pos + 1) (some c) rest

/-- All matches `(start, length)` of one pattern over `text`, in order. -/
def scanPattern (try_ : Option Char → List Char → Option Nat)
    (text : List Char) : List (Nat × Nat) :=
  scanAux try_ text.length 0 none text

/-- `SEARCH_PATTERNS` in its source (insertion) order. -/
def SEARCH_PATTERNS : List (String × (Option Char → List Char → Option Nat)) :=
  [ ("hash_sha256", tryHash 64)
  , ("hash_sha1", tryHash 40)
  , ("hash_md5", tryHash 32)
  , ("hash_sha512", tryHash 128)
  , ("url_defanged", tryUrl "hxxp".data "[:]//".data)
  , ("url_normal", tryUrl "http".data "://".data)
  , ("ip_defanged", tryIpDefanged)
  , ("ip_normal", tryIpNormal)
  , ("domain_defanged", tryDomainDefanged)
  , ("cve", tryCve)
  , ("email", tryEmail) ]

def healC (c : Char) : Bool :=
  c.isAlphanum || c = '/' || c = '-' || c = '_' || c = '.' || c = '[' || c = ']'

/-- `normalize_text_for_url_extraction`: delete every line break whose two
neighbours lie in the URL-ish character class. -/
def heal : List Char → List Char
  | a :: '\n' :: b :: rest =>
    if healC a && healC b then a :: heal (b :: rest)
    else a :: '\n' :: heal (b :: rest)
  | c :: rest => c :: heal rest
  | [] => []

/-- All matches of all patterns, pattern by pattern in `SEARCH_PATTERNS`
order: `(pattern name, start, length)`. -/
def allMatches (text : List Char) : List (String × Nat × Nat) :=
  SEARCH_PATTERNS.flatMap (fun p => (scanPattern p.2 text).map (fun m => (p.1, m)))

/-- The yield loop of `RegexPatternRule.extract`: deduplicate by the raw
matched substring, attach 50 characters of whitespace-collapsed context on
each side tagged with the pattern name, and normalize.  Each produced pair
keeps the raw matched substring alongside the normalized record. -/
def regexDedup (text : List Char) :
    List (String × Nat × Nat) → List String → List (String × IoC)
  | [], _ => []
  | (nm, st, ln) :: rest, seen =>
    let value := String.mk ((text.drop st).take ln)
    if value ∈ seen then regexDedup text rest seen
    else
      let a := st - 50
      let b := min text.length (st + ln + 50)
      let ctx := trimL (((text.drop a).take (b - a)).map
        (fun c => if c = '\n' then ' ' else c))
      (value,
        IoCNormalizer.normalize_and_classify value
          ("[" ++ nm ++ "] ..." ++ String.mk ctx ++ "...")) ::
        regexDedup text rest (value :: seen)

/-- The full text: non-empty paragraph texts joined by line breaks, then
healed. -/
def fullText (paras : List String) : List Char :=
  heal (intercalateL ['\n'] ((paras.filter (fun t => t ≠ "")).map String.data))

/-- `RegexPatternRule.extract` with the raw matched substring of each
yielded record exposed. -/
def regexYields (paras : List String) : List (String × IoC) :=
  let text := fullText paras
  regexDedup text (allMatches text) []

/-- `RegexPatternRule.extract` over the document's paragraph texts. -/
def extract (paras : List String) : List IoC :=
  (regexYields paras).map (fun p => p.2)

end RegexPatternRule

/-! ## Auxiliary definitions for the statements below -/

/-- The coordinator's `seen` set after processing a prefix of the rules. -/
def seenAfter (pu : Bool) (seen : List (String × IoCType)) :
    List RuleRun → List (String × IoCType)
  | [] => seen
  | r :: rest => seenAfter pu (processItems pu r.name seen r.yielded).2 rest

/-- A string in which no defang pattern occurs (case-insensitively where the
pattern is case-insensitive). -/
def cleanOfDefang (s : String) : Bool :=
  IoCNormalizer.DEFANG_PATTERNS.all (fun p => !hasMatchL p.2.2 p.1 s.data)

/-- A 32-character hex sample value. -/
def hexA : String := String.mk (List.replicate 32 'a')

/-- A second 32-character hex sample value. -/
def hexB : String := String.mk (List.replicate 32 'b')

/-- A third 32-character hex sample value. -/
def hexC : String := String.mk (List.replicate 32 'c')

/-- A sample record used as rule output in concrete coordinator runs. -/
def ipIoC : IoC := mkIoC "1.2.3.4" IoCType.IP_ADDRESS "" false ""

/-- A second sample record with a key different from `ipIoC`. -/
def ipIoC2 : IoC := mkIoC "8.8.8.8" IoCType.IP_ADDRESS "" false ""

/-- The spec's URL round-trip sample, as normalized and classified by a rule. -/
def urlSample : IoC :=
  IoCNormalizer.normalize_and_classify "https://sub.example.com:8443/a/b?x=1" ""

/-- One rule yielding the URL sample. -/
def urlRuns : List RuleRun := [⟨"r", [urlSample], none⟩]

/-! ## Helper lemmas -/

/-- A literal substitution leaves a string without occurrences of the
pattern unchanged. -/
theorem replaceAllF_no_occ (ci : Bool) (pat rep : List Char) :
    ∀ (n : Nat) (s : List Char), hasMatchL ci pat s = false →
      replaceAllF ci pat rep n s = s := by
  intro n
  induction n with
  | zero => intro s _; rfl
  | succ n ih =>
    intro s h
    cases s with
    | nil => rfl
    | cons c rest =>
      simp only [hasMatchL, Bool.or_eq_false_iff] at h
      simp only [replaceAllF, h.1, Bool.and_false, Bool.false_eq_true,
        if_false, ih rest h.2]

/-- `replaceAllL` version of `replaceAllF_no_occ`. -/
theorem replaceAllL_no_occ (ci : Bool) (pat rep s : List Char)
    (h : hasMatchL ci pat s = false) : replaceAllL ci pat rep s = s :=
  replaceAllF_no_occ ci pat rep s.length s h

/-- The refang fold fixes any string free of all its patterns. -/
theorem refang_foldl_clean :
    ∀ (ps : List (List Char × List Char × Bool)) (sd : List Char),
      ps.all (fun p => !hasMatchL p.2.2 p.1 sd) = true →
      ps.foldl
        (fun acc p =>
          let r := replaceAllL p.2.2 p.1 p.2.1 acc.1
          (r, acc.2 || (r != acc.1))) (sd, false) = (sd, false) := by
  intro ps
  induction ps with
  | nil => intro sd _; rfl
  | cons p ps ih =>
    intro sd h
    simp only [List.all_cons, Bool.and_eq_true, Bool.not_eq_true'] at h
    have e : replaceAllL p.2.2 p.1 p.2.1 sd = sd := replaceAllL_no_occ _ _ _ _ h.1
    simp only [List.foldl, e, bne_self_eq_false, Bool.or_false]
    exact ih sd (by simp only [List.all_eq_true] at h ⊢; exact h.2)

/-- Assigning the rule name does not change the deduplication key. -/
theorem iocKey_setRule (n : String) (i : IoC) : iocKey (setRule n i) = iocKey i := rfl

/-- Assigning the rule name sets `rule_extracted`. -/
theorem setRule_name (n : String) (i : IoC) : (setRule n i).rule_extracted = n := rfl

/-- The grown `seen` set of `processItems` is the old one plus the keys of
the appended records. -/
theorem processItems_seen_iff (pu : Bool) (rn : String) :
    ∀ (ys : List IoC) (seen : List (String × IoCType)) (k : String × IoCType),
      k ∈ (processItems pu rn seen ys).2 ↔
        k ∈ seen ∨ k ∈ (processItems pu rn seen ys).1.map iocKey := by
  intro ys
  induction ys with
  | nil => intro seen k; simp [processItems]
  | cons i ys ih =>
    intro seen k
    by_cases hk : keepIoC pu i = true
    · by_cases hm : iocKey i ∈ seen
      · simpa [processItems, hk, hm] using ih seen k
      · simp only [processItems, hk, Bool.not_true, Bool.false_eq_true, if_false,
          if_neg hm, List.map_cons, iocKey_setRule, List.mem_cons]
        rw [ih]
        simp only [List.mem_cons]
        tauto
    · have hk' : keepIoC pu i = false := by
        cases h : keepIoC pu i
        · rfl
        · exact absurd h hk
      simpa [processItems, hk'] using ih seen k

/-- The appended records of `processItems` have pairwise-distinct keys, all
fresh with respect to the incoming `seen` set. -/
theorem processItems_nodup (pu : Bool) (rn : String) :
    ∀ (ys : List IoC) (seen : List (String × IoCType)),
      ((processItems pu rn seen ys).1.map iocKey).Nodup ∧
      ∀ k ∈ (processItems pu rn seen ys).1.map iocKey, k ∉ seen := by
  intro ys
  induction ys with
  | nil => intro seen; simp [processItems]
  | cons i ys ih =>
    intro seen
    by_cases hk : keepIoC pu i = true
    · by_cases hm : iocKey i ∈ seen
      · simpa [processItems, hk, hm] using ih seen
      · simp only [processItems, hk, Bool.not_true, Bool.false_eq_true, if_false,
          if_neg hm, List.map_cons, iocKey_setRule, List.nodup_cons, List.mem_cons]
        obtain ⟨h1, h2⟩ := ih (iocKey i :: seen)
        refine ⟨⟨fun hc => ?_, h1⟩, ?_⟩
        · exact (h2 _ hc) (List.mem_cons_self _ _)
        · rintro k (rfl | hkmem)
          · exact hm
          · exact fun hks => (h2 _ hkmem) (List.mem_cons_of_mem _ hks)
    · have hk' : keepIoC pu i = false := by
        cases h : keepIoC pu i
        · rfl
        · exact absurd h hk
      simpa [processItems, hk'] using ih seen

/-- Every appended record of `processItems` is a kept yielded record with
the rule name assigned. -/
theorem processItems_mem (pu : Bool) (rn : String) :
    ∀ (ys : List IoC) (seen : List (String × IoCType)) (j : IoC),
      j ∈ (processItems pu rn seen ys).1 →
      ∃ i ∈ ys, keepIoC pu i = true ∧ j = setRule rn i := by
  intro ys
  induction ys with
  | nil => intro seen j h; simp [processItems] at h
  | cons i ys ih =>
    intro seen j hj
    by_cases hk : keepIoC pu i = true
    · by_cases hm : iocKey i ∈ seen
      · simp only [processItems, hk, Bool.not_true, Bool.false_eq_true, if_false,
          if_pos hm] at hj
        obtain ⟨i', hi', hki', he⟩ := ih seen j hj
        exact ⟨i', List.mem_cons_of_mem _ hi', hki', he⟩
      · simp only [processItems, hk, Bool.not_true, Bool.false_eq_true, if_false,
          if_neg hm, List.mem_cons] at hj
        rcases hj with rfl | hj
        · exact ⟨i, List.mem_cons_self _ _, hk, rfl⟩
        · obtain ⟨i', hi', hki', he⟩ := ih _ j hj
          exact ⟨i', List.mem_cons_of_mem _ hi', hki', he⟩
    · have hk' : keepIoC pu i = false := by
        cases h : keepIoC pu i
        · rfl
        · exact absurd h hk
      simp only [processItems, hk', Bool.not_false, if_true] at hj
      obtain ⟨i', hi', hki', he⟩ := ih seen j hj
      exact ⟨i', List.mem_cons_of_mem _ hi', hki', he⟩

/-- When some yielded record carries the fresh key `k`, `processItems`
appends a record with key `k`. -/
theorem processItems_hit (pu : Bool) (rn : String) :
    ∀ (ys : List IoC) (seen : List (String × IoCType)) (k : String × IoCType),
      k ∉ seen → (∃ i ∈ ys, keepIoC pu i = true ∧ iocKey i = k) →
      ∃ j ∈ (processItems pu rn seen ys).1, iocKey j = k := by
  intro ys
  induction ys with
  | nil => intro seen k _ h; simp at h
  | cons i ys ih =>
    intro seen k hks ⟨w, hw, hkw, hkey⟩
    by_cases hk : keepIoC pu i = true
    · by_cases hm : iocKey i ∈ seen
      · simp only [processItems, hk, Bool.not_true, Bool.false_eq_true, if_false,
          if_pos hm]
        rcases List.mem_cons.mp hw with rfl | hw'
        · exact absurd (hkey ▸ hm) hks
        · exact ih seen k hks ⟨w, hw', hkw, hkey⟩
      · simp only [processItems, hk, Bool.not_true, Bool.false_eq_true, if_false,
          if_neg hm]
        by_cases hik : iocKey i = k
        · exact ⟨setRule rn i, List.mem_cons_self _ _, (iocKey_setRule rn i).trans hik⟩
        · rcases List.mem_cons.mp hw with rfl | hw'
          · exact absurd hkey hik
          · obtain ⟨j, hj, hjk⟩ := ih (iocKey i :: seen) k
              (by
                intro hx
                rcases List.mem_cons.mp hx with h | h
                · exact hik h.symm
                · exact hks h) ⟨w, hw', hkw, hkey⟩
            exact ⟨j, List.mem_cons_of_mem _ hj, hjk⟩
    · rcases List.mem_cons.mp hw with rfl | hw'
      · exact absurd hkw hk
      · have hk' : keepIoC pu i = false := by
          cases h : keepIoC pu i
          · rfl
          · exact absurd h hk
        simp only [processItems, hk', Bool.not_false, if_true]
        exact ih seen k hks ⟨w, hw', hkw, hkey⟩

/-- The collected records of the rule loop have pairwise-distinct keys, all
fresh with respect to the incoming `seen` set. -/
theorem runRulesAux_nodup (pu : Bool) :
    ∀ (runs : List RuleRun) (seen : List (String × IoCType)),
      ((runRulesAux pu seen runs).1.map iocKey).Nodup ∧
      ∀ k ∈ (runRulesAux pu seen runs).1.map iocKey, k ∉ seen := by
  intro runs
  induction runs with
  | nil => intro seen; simp [runRulesAux]
  | cons r rest ih =>
    intro seen
    simp only [runRulesAux, List.map_append, List.nodup_append, List.mem_append]
    obtain ⟨hn, hf⟩ := processItems_nodup pu r.name r.yielded seen
    obtain ⟨hn', hf'⟩ := ih (processItems pu r.name seen r.yielded).2
    refine ⟨⟨hn, hn', ?_⟩, ?_⟩
    · intro k hk hk'
      exact hf' k hk' ((processItems_seen_iff pu r.name r.yielded seen k).mpr
        (Or.inr hk))
    · rintro k (hk | hk)
      · exact hf k hk
      · intro hks
        exact hf' k hk ((processItems_seen_iff pu r.name r.yielded seen k).mpr
          (Or.inl hks))

/-- The rule loop over an appended rule list splits into the two loops, the
second starting from the `seen` set left by the first. -/
theorem runRulesAux_append (pu : Bool) :
    ∀ (l1 l2 : List RuleRun) (seen : List (String × IoCType)),
      (runRulesAux pu seen (l1 ++ l2)).1 =
        (runRulesAux pu seen l1).1 ++ (runRulesAux pu (seenAfter pu seen l1) l2).1 := by
  intro l1
  induction l1 with
  | nil => intro l2 seen; simp [runRulesAux, seenAfter]
  | cons r l1 ih =>
    intro l2 seen
    simp only [List.cons_append, runRulesAux, seenAfter, List.append_eq, ih,
      List.append_assoc]

/-- Keys already seen stay seen after more rules. -/
theorem seenAfter_mono (pu : Bool) :
    ∀ (runs : List RuleRun) (seen : List (String × IoCType)) (k : String × IoCType),
      k ∈ seen → k ∈ seenAfter pu seen runs := by
  intro runs
  induction runs with
  | nil => intro seen k h; exact h
  | cons r rest ih =>
    intro seen k h
    exact ih _ k ((processItems_seen_iff pu r.name r.yielded seen k).mpr (Or.inl h))

/-- Rules none of whose kept yielded records carry key `k` neither record
`k` as seen nor collect a record with key `k`. -/
theorem runRulesAux_no_contrib (pu : Bool) :
    ∀ (runs : List RuleRun) (seen : List (String × IoCType)) (k : String × IoCType),
      k ∉ seen →
      (∀ r ∈ runs, ∀ i ∈ r.yielded, keepIoC pu i = true → iocKey i ≠ k) →
      k ∉ seenAfter pu seen runs ∧
      ∀ j ∈ (runRulesAux pu seen runs).1, iocKey j ≠ k := by
  intro runs
  induction runs with
  | nil => intro seen k hk _; exact ⟨hk, by simp [runRulesAux]⟩
  | cons r rest ih =>
    intro seen k hk hno
    have hpr : k ∉ (processItems pu r.name seen r.yielded).2 := by
      intro hmem
      rcases (processItems_seen_iff pu r.name r.yielded seen k).mp hmem with h | h
      · exact hk h
      · obtain ⟨j, hj, hjk⟩ := List.mem_map.mp h
        obtain ⟨i, hi, hki, rfl⟩ := processItems_mem pu r.name r.yielded seen j hj
        exact hno r (List.mem_cons_self _ _) i hi hki ((iocKey_setRule r.name i) ▸ hjk)
    obtain ⟨h1, h2⟩ := ih (processItems pu r.name seen r.yielded).2 k hpr
      (fun r' hr' => hno r' (List.mem_cons_of_mem _ hr'))
    refine ⟨h1, ?_⟩
    intro j hj
    simp only [runRulesAux, List.mem_append] at hj
    rcases hj with hj | hj
    · obtain ⟨i, hi, hki, rfl⟩ := processItems_mem pu r.name r.yielded seen j hj
      exact (iocKey_setRule r.name i) ▸ hno r (List.mem_cons_self _ _) i hi hki
    · exact h2 j hj

/-- Once key `k` is seen, no later collected record carries it. -/
theorem runRulesAux_seen_excluded (pu : Bool) :
    ∀ (runs : List RuleRun) (seen : List (String × IoCType)) (k : String × IoCType),
      k ∈ seen → ∀ j ∈ (runRulesAux pu seen runs).1, iocKey j ≠ k := by
  intro runs
  induction runs with
  | nil => intro seen k _ j hj; simp [runRulesAux] at hj
  | cons r rest ih =>
    intro seen k hk j hj
    simp only [runRulesAux, List.mem_append] at hj
    rcases hj with hj | hj
    · intro he
      exact (processItems_nodup pu r.name r.yielded seen).2 (iocKey j)
        (List.mem_map_of_mem _ hj) (he ▸ hk)
    · exact ih _ k ((processItems_seen_iff pu r.name r.yielded seen k).mpr (Or.inl hk)) j hj

/-- Every record appended by the full (spec-modelled) inner loop is a
post-processed yielded record with the rule name assigned. -/
theorem processItemsFull_mem (pu uo : Bool) (rn : String) :
    ∀ (ys : List IoC) (seen : List (String × IoCType)) (j : IoC),
      j ∈ (processItemsFull pu uo rn seen ys).1 →
      ∃ i, j = setRule rn (postProcess uo i) := by
  intro ys
  induction ys with
  | nil => intro seen j h; simp [processItemsFull] at h
  | cons i ys ih =>
    intro seen j hj
    cases hk : keepIoC pu i with
    | false =>
      simp only [processItemsFull, hk, Bool.not_false, if_true] at hj
      exact ih seen j hj
    | true =>
      by_cases hm : iocKey (postProcess uo i) ∈ seen
      · simp only [processItemsFull, hk, Bool.not_true, Bool.false_eq_true, if_false,
          if_pos hm] at hj
        exact ih seen j hj
      · simp only [processItemsFull, hk, Bool.not_true, Bool.false_eq_true, if_false,
          if_neg hm, List.mem_cons] at hj
        rcases hj with rfl | hj
        · exact ⟨i, rfl⟩
        · exact ih _ j hj

/-- Every record collected by the full (spec-modelled) rule loop is a
post-processed record. -/
theorem runRulesFullAux_mem (pu uo : Bool) :
    ∀ (runs : List RuleRun) (seen : List (String × IoCType)) (j : IoC),
      j ∈ (runRulesFullAux pu uo seen runs).1 →
      ∃ rn i, j = setRule rn (postProcess uo i) := by
  intro runs
  induction runs with
  | nil => intro seen j h; simp [runRulesFullAux] at h
  | cons r rest ih =>
    intro seen j hj
    simp only [runRulesFullAux, List.mem_append] at hj
    rcases hj with hj | hj
    · obtain ⟨i, rfl⟩ := processItemsFull_mem pu uo r.name r.yielded seen j hj
      exact ⟨r.name, i, rfl⟩
    · exact ih _ j hj

/-- With `url_original = false`, post-processing never leaves a `URL`-typed
record: URL records are re-typed `DOMAIN` and every other type is kept. -/
theorem postProcess_false_not_url (i : IoC) :
    (postProcess false i).ioc_type ≠ IoCType.URL := by
  unfold postProcess
  by_cases h1 : i.ioc_type = IoCType.URL
  · simp [h1]
  · by_cases h2 : i.ioc_type = IoCType.DOMAIN
    · simp [h1, h2]
    · simp [h1, h2]

/-- The raw matched substrings kept by the regex rule's dedup fold are
pairwise distinct and fresh with respect to the incoming `seen` set. -/
theorem regexDedup_nodup (text : List Char) :
    ∀ (ms : List (String × Nat × Nat)) (seen : List String),
      ((RegexPatternRule.regexDedup text ms seen).map (fun p => p.1)).Nodup ∧
      ∀ v ∈ (RegexPatternRule.regexDedup text ms seen).map (fun p => p.1), v ∉ seen := by
  intro ms
  induction ms with
  | nil => intro seen; simp [RegexPatternRule.regexDedup]
  | cons m rest ih =>
    intro seen
    obtain ⟨nm, st, ln⟩ := m
    by_cases hm : String.mk ((text.drop st).take ln) ∈ seen
    · simpa [RegexPatternRule.regexDedup, hm] using ih seen
    · simp only [RegexPatternRule.regexDedup, if_neg hm, List.map_cons,
        List.nodup_cons, List.mem_cons]
      obtain ⟨h1, h2⟩ := ih (String.mk ((text.drop st).take ln) :: seen)
      refine ⟨⟨fun hc => ?_, h1⟩, ?_⟩
      · exact (h2 _ hc) (List.mem_cons_self _ _)
      · rintro v (rfl | hv)
        · exact hm
        · exact fun hvs => (h2 _ hv) (List.mem_cons_of_mem _ hvs)

/-! ## Claim theorems -/

/-- C3 counterexample: `refang` is not idempotent.  On `"[[.]]"` the bracket
substitution produces `"[.]"`, which a second `refang` collapses further to
`"."`, so `refang (refang x).1 ≠ refang x` at `x = "[[.]]"`. -/
theorem claim3_cex :
    IoCNormalizer.refang (IoCNormalizer.refang "[[.]]").1 ≠
      IoCNormalizer.refang "[[.]]" := by decide

/-- C3 (amended): `refang` of a string in which no defang pattern occurs
returns the string unchanged with `was_defanged = false`; idempotence fails
in general because a substitution can create a fresh pattern occurrence. -/
theorem claim3_refang_clean (s : String) (h : cleanOfDefang s = true) :
    IoCNormalizer.refang s = (s, false) := by
  have e := refang_foldl_clean IoCNormalizer.DEFANG_PATTERNS s.data h
  unfold IoCNormalizer.refang IoCNormalizer.refangL
  rw [show IoCNormalizer.DEFANG_PATTERNS.foldl
      (fun acc p =>
        let r := replaceAllL p.2.2 p.1 p.2.1 acc.1
        (r, acc.2 || (r != acc.1))) (s.data, false) = (s.data, false) from e]

/-- C3 witness: a concrete clean string is fixed by `refang`. -/
theorem claim3_refang_clean_witness :
    cleanOfDefang "example.com" = true ∧
    IoCNormalizer.refang "example.com" = ("example.com", false) :=
  ⟨by decide, claim3_refang_clean "example.com" (by decide)⟩

/-- C4 counterexample: a record can exist with an empty `original_value` —
`normalize_and_classify` applied to the empty string produces one (the
`__post_init__` default copies the also-empty `value`). -/
theorem claim4_cex :
    (IoCNormalizer.normalize_and_classify "" "").original_value = "" := by decide

/-- C4 (amended): `original_value` defaults to `value` when not separately
supplied, and is non-empty whenever the supplied original or the value is
non-empty. -/
theorem claim4_original_default (v o c : String) (t : IoCType) (d : Bool) :
    (mkIoC v t c d o).original_value = (if o = "" then v else o) ∧
    (o ≠ "" ∨ v ≠ "" → (mkIoC v t c d o).original_value ≠ "") := by
  refine ⟨rfl, ?_⟩
  intro h
  show (if o = "" then v else o) ≠ ""
  by_cases ho : o = ""
  · rw [if_pos ho]
    rcases h with h | h
    · exact absurd ho h
    · exact h
  · rw [if_neg ho]
    exact ho

/-- C4 witness: a record built from a non-empty value and no separate
original has a non-empty `original_value`. -/
theorem claim4_original_default_witness :
    (mkIoC "x" IoCType.UNKNOWN "" false "").original_value ≠ "" :=
  (claim4_original_default "x" "" "" IoCType.UNKNOWN false).2 (Or.inr (by decide))

/-- C2 counterexample: a rule that yields one record and then faults keeps
that record in the result (the error is recorded, but the partial output is
merged, not discarded). -/
theorem claim2_cex :
    (runRules false [⟨"bad", [ipIoC], some "boom"⟩]).1 = [setRule "bad" ipIoC] ∧
    (runRules false [⟨"bad", [ipIoC], some "boom"⟩]).2 = [ruleErr "bad" "boom"] := by
  constructor <;> decide

/-- C2 (amended): the records a rule yielded before its fault point are kept
and merged exactly as if the rule had completed; the fault only adds the
rule's error string. -/
theorem claim2_partial_kept (pu : Bool) (n : String) (ys : List IoC) (m : String)
    (rest : List RuleRun) :
    runRules pu (⟨n, ys, some m⟩ :: rest) =
      ((runRules pu (⟨n, ys, none⟩ :: rest)).1,
       ruleErr n m :: (runRules pu (⟨n, ys, none⟩ :: rest)).2) := rfl

/-- C7 counterexample: the error string recorded for a faulting rule is the
Russian format of the source, not the literal `error in rule '<name>':
<detail>`. -/
theorem claim7_cex :
    (runRules false [⟨"r", [], some "boom"⟩]).2 = [ruleErr "r" "boom"] ∧
    ruleErr "r" "boom" ≠ "error in rule 'r': boom" := by
  constructor <;> decide

/-- C7 (amended): a fault in one rule is recorded as exactly one error string
`Ошибка в правиле '<name>': <detail>` prepended to the errors of the
remaining rules, and the remaining rules still run and contribute their
records to the same result. -/
theorem claim7_isolation (pu : Bool) (n : String) (ys : List IoC) (m : String)
    (rest : List RuleRun) :
    (runRules pu (⟨n, ys, some m⟩ :: rest)).2 =
      ruleErr n m :: (runRulesAux pu (processItems pu n [] ys).2 rest).2 ∧
    (runRules pu (⟨n, ys, some m⟩ :: rest)).1 =
      (processItems pu n [] ys).1 ++ (runRulesAux pu (processItems pu n [] ys).2 rest).1 ∧
    (runRules false [⟨"r1", [], some "x"⟩, ⟨"r2", [ipIoC2], none⟩]).1 =
      [setRule "r2" ipIoC2] :=
  ⟨rfl, rfl, by decide⟩

/-- C8: a missing file, a non-`.docx` suffix, or a failing document open
yields a result with no records and exactly one error, without running any
rule (the result does not depend on the rules' behaviour). -/
theorem claim8_file_errors (f : FileInfo) (pu : Bool) (runs runs' : List RuleRun)
    (h : f.fileExists = false ∨ lowerStr f.suffix ≠ ".docx" ∨ f.openError ≠ none) :
    (extract f pu runs).iocs = [] ∧ (extract f pu runs).errors.length = 1 ∧
    extract f pu runs = extract f pu runs' := by
  cases hf : f.fileExists with
  | false => simp [extract, hf]
  | true =>
    by_cases hs : lowerStr f.suffix = ".docx"
    · have ho : f.openError ≠ none := by
        rcases h with h | h | h
        · rw [hf] at h; exact absurd h (by simp)
        · exact absurd hs h
        · exact h
      cases he : f.openError with
      | none => exact absurd he ho
      | some e => simp [extract, hf, hs, he]
    · simp [extract, hf, hs]

/-- C8 witness: a concrete wrong-suffix file. -/
theorem claim8_file_errors_witness :
    (extract ⟨"doc.txt", true, ".txt", none⟩ false []).iocs = [] ∧
    (extract ⟨"doc.txt", true, ".txt", none⟩ false []).errors.length = 1 ∧
    extract ⟨"doc.txt", true, ".txt", none⟩ false [] =
      extract ⟨"doc.txt", true, ".txt", none⟩ false [⟨"r", [ipIoC], none⟩] :=
  claim8_file_errors ⟨"doc.txt", true, ".txt", none⟩ false [] [⟨"r", [ipIoC], none⟩]
    (Or.inr (Or.inl (by decide)))

/-- C5: for every file, every option setting and every rule behaviour, the
result of the coordinator's extract contains no two records with equal
`(value, type)`. -/
theorem claim5_dedup_invariant (f : FileInfo) (pu : Bool) (runs : List RuleRun) :
    ((extract f pu runs).iocs.map iocKey).Nodup := by
  unfold extract
  split
  · simp
  · split
    · simp
    · split
      · simp
      · exact (runRulesAux_nodup pu runs []).1

/-- C6: when the rule registered first among the discoverers of a key and a
later rule both yield a kept record with that `(value, type)` key, the single
record kept in the result carries the first rule's name. -/
theorem claim6_first_rule_attribution (pu : Bool) (pre mid post : List RuleRun)
    (r1 r2 : RuleRun) (k : String × IoCType)
    (hpre : ∀ r ∈ pre, ∀ i ∈ r.yielded, keepIoC pu i = true → iocKey i ≠ k)
    (h1 : ∃ i ∈ r1.yielded, keepIoC pu i = true ∧ iocKey i = k)
    (_h2 : ∃ i ∈ r2.yielded, keepIoC pu i = true ∧ iocKey i = k) :
    (∃ j ∈ (runRules pu (pre ++ r1 :: (mid ++ r2 :: post))).1,
        iocKey j = k ∧ j.rule_extracted = r1.name) ∧
    (∀ j ∈ (runRules pu (pre ++ r1 :: (mid ++ r2 :: post))).1,
        iocKey j = k → j.rule_extracted = r1.name) := by
  have hnc := runRulesAux_no_contrib pu pre [] k (by simp) hpre
  have hsplit := runRulesAux_append pu pre (r1 :: (mid ++ r2 :: post)) []
  have hpr1 :
      (runRulesAux pu (seenAfter pu [] pre) (r1 :: (mid ++ r2 :: post))).1 =
        (processItems pu r1.name (seenAfter pu [] pre) r1.yielded).1 ++
          (runRulesAux pu
            (processItems pu r1.name (seenAfter pu [] pre) r1.yielded).2
            (mid ++ r2 :: post)).1 := rfl
  obtain ⟨j0, hj0, hj0k⟩ :=
    processItems_hit pu r1.name r1.yielded (seenAfter pu [] pre) k hnc.1 h1
  have hkseen :
      k ∈ (processItems pu r1.name (seenAfter pu [] pre) r1.yielded).2 :=
    (processItems_seen_iff pu r1.name r1.yielded (seenAfter pu [] pre) k).mpr
      (Or.inr (hj0k ▸ List.mem_map_of_mem iocKey hj0))
  have hrest :=
    runRulesAux_seen_excluded pu (mid ++ r2 :: post)
      (processItems pu r1.name (seenAfter pu [] pre) r1.yielded).2 k hkseen
  constructor
  · refine ⟨j0, ?_, hj0k, ?_⟩
    · show j0 ∈ (runRulesAux pu [] (pre ++ r1 :: (mid ++ r2 :: post))).1
      rw [hsplit, hpr1]
      exact List.mem_append_right _ (List.mem_append_left _ hj0)
    · obtain ⟨i, _, _, rfl⟩ :=
        processItems_mem pu r1.name r1.yielded (seenAfter pu [] pre) j0 hj0
      rfl
  · intro j hj hjk
    rw [show (runRules pu (pre ++ r1 :: (mid ++ r2 :: post))).1 =
        (runRulesAux pu [] (pre ++ r1 :: (mid ++ r2 :: post))).1 from rfl,
      hsplit, hpr1] at hj
    rcases List.mem_append.mp hj with hj | hj
    · exact absurd hjk (hnc.2 j hj)
    · rcases List.mem_append.mp hj with hj | hj
      · obtain ⟨i, _, _, rfl⟩ :=
          processItems_mem pu r1.name r1.yielded (seenAfter pu [] pre) j hj
        rfl
      · exact absurd hjk (hrest j hj)

/-- C6 witness: two rules discovering the same key; the record is attributed
to the first. -/
theorem claim6_witness :
    ∃ j ∈ (runRules false
        [(⟨"A", [ipIoC], none⟩ : RuleRun), ⟨"B", [ipIoC], none⟩]).1,
      iocKey j = ("1.2.3.4", IoCType.IP_ADDRESS) ∧ j.rule_extracted = "A" :=
  (claim6_first_rule_attribution false [] [] [] ⟨"A", [ipIoC], none⟩
    ⟨"B", [ipIoC], none⟩ ("1.2.3.4", IoCType.IP_ADDRESS)
    (by simp) (by decide) (by decide)).1

/-- C9: on paragraphs `["Hashes:", <32 hex>;, <32 hex>.]` the list rule
extracts both hex values, punctuation stripped, with context `"Hashes:"`;
the paragraph ending in `.` terminates the list (a following bare hex
paragraph is not consumed), and scanning resumes at the next paragraph
(a later header opens a new list). -/
theorem claim9_list_boundary :
    (ListAfterColonRule.extract ["Hashes:", hexA ++ ";", hexB ++ "."]).map
        (fun i => (i.value, i.ioc_type, i.source_context)) =
      [(hexA, IoCType.HASH_MD5, "Hashes:"), (hexB, IoCType.HASH_MD5, "Hashes:")] ∧
    ListAfterColonRule.extract ["Hashes:", hexA ++ ";", hexB ++ ".", hexC] =
      ListAfterColonRule.extract ["Hashes:", hexA ++ ";", hexB ++ "."] ∧
    (ListAfterColonRule.extract
        ["Hashes:", hexA ++ ";", hexB ++ ".", "More:", hexC ++ ";"]).map
        (fun i => (i.value, i.source_context)) =
      [(hexA, "Hashes:"), (hexB, "Hashes:"), (hexC, "More:")] := by
  refine ⟨by decide, by decide, by decide⟩

/-- C10: within one run of the regex rule, at most one record is yielded per
distinct raw matched substring (deduplication happens on the raw match,
before normalization), so a defanged and a non-defanged spelling of the same
indicator in one document each yield a separate record: on
`"1.2.3.4 and 1[.]2[.]3[.]4"` the rule yields two records with the same
normalized value and type but distinct originals. -/
theorem claim10_regex_raw_dedup :
    (∀ paras : List String,
        ((RegexPatternRule.regexYields paras).map (fun p => p.1)).Nodup) ∧
    (RegexPatternRule.extract ["1.2.3.4 and 1[.]2[.]3[.]4"]).map
        (fun i => (i.value, i.ioc_type, i.original_value, i.defanged)) =
      [("1.2.3.4", IoCType.IP_ADDRESS, "1[.]2[.]3[.]4", true),
       ("1.2.3.4", IoCType.IP_ADDRESS, "1.2.3.4", false)] := by
  constructor
  · intro paras
    exact (regexDedup_nodup (RegexPatternRule.fullText paras)
      (RegexPatternRule.allMatches (RegexPatternRule.fullText paras)) []).1
  · decide

/-- C1: with `url_original = false` (the default), no URL-typed record
survives the coordinator's post-processing (URL records are collapsed and
re-typed `DOMAIN`), and the spec's round-trip sample
`https://sub.example.com:8443/a/b?x=1` yields a record with type `DOMAIN`
and value `sub.example.com`. -/
theorem claim1_url_collapse :
    (∀ (pu : Bool) (runs : List RuleRun) (j : IoC),
        j ∈ (runRulesFull pu false runs).1 → j.ioc_type ≠ IoCType.URL) ∧
    (runRulesFull false false urlRuns).1.map (fun i => (i.value, i.ioc_type)) =
      [("sub.example.com", IoCType.DOMAIN)] := by
  constructor
  · intro pu runs j hj
    obtain ⟨rn, i, rfl⟩ := runRulesFullAux_mem pu false runs [] j hj
    exact postProcess_false_not_url i
  · decide

/-- C1 witness: the record produced for the sample URL is not URL-typed. -/
theorem claim1_url_collapse_witness :
    (setRule "r" (postProcess false urlSample)).ioc_type ≠ IoCType.URL :=
  claim1_url_collapse.1 false urlRuns (setRule "r" (postProcess false urlSample))
    (by decide)

end IoCDocx
